import Mathlib

/-!
Verification development for the Notes-It block editor engine.

The definitions below are shallow embeddings of the TypeScript engine code:
`src/utils.ts` (schema validation, factory, tree operations, formatting
logic, helpers) and `src/hooks/useHistory.ts` (snapshot history).  Text is
modelled as `List Char`, character offsets as `Nat`.  A `Mark` carries no
attributes in the source (`{ type: markType }` is the only constructor used),
so a mark is modelled by its type-tag string.  Fresh random identifiers
(`Math.random`-based `uid()` and `crypto.randomUUID()`) are modelled by the
placeholder `""`; no verified property depends on identifier values.
-/

namespace NotesIt

/-- An inline styled text run (`InlineNode` in `src/types.ts`). -/
structure InlineNode where
  id : String
  text : List Char
  marks : List String
deriving DecidableEq, Repr

/-- Membership test `node.marks.some((m) => m.type === markType)`. -/
def hasMark (marks : List String) (m : String) : Bool :=
  marks.contains m

/-- Sorting of mark tags, modelling `[...a].sort((x, y) => x.type.localeCompare(y.type))`. -/
def sortMarks (l : List String) : List String :=
  l.insertionSort (fun a b => a ≤ b)

/-- Equality of mark lists as in `areMarksEqual`: equal length and equal
sorted sequences (the `JSON.stringify` comparison of the sorted arrays). -/
def areMarksEqual (a b : List String) : Bool :=
  a.length == b.length && sortMarks a == sortMarks b

/-- Total text length of a content sequence (`getTextLength`). -/
def getTextLength (content : List InlineNode) : Nat :=
  content.foldl (fun acc n => acc + n.text.length) 0

/-- Concatenation of the texts of a content sequence. -/
def joinText (content : List InlineNode) : List Char :=
  (content.map (fun n => n.text)).flatten

/-- The marks governing character position `p` of the concatenated text of a
content sequence (the marks of the span containing that character); `[]` for
out-of-range positions. -/
def charMarks : List InlineNode → Nat → List String
  | [], _ => []
  | n :: rest, p =>
    if p < n.text.length then n.marks else charMarks rest (p - n.text.length)

/-- The direction-deciding scan of `toggleMarkInRange`: `true` iff every span
overlapping `[s, e)` already carries mark `m` (the source loop breaks at the
first overlapping span without it; `&&` short-circuiting models the break). -/
def checkAllHaveMark (s e : Nat) (m : String) : List InlineNode → Nat → Bool
  | [], _ => true
  | n :: rest, pos =>
    let nodeEnd := pos + n.text.length
    if max pos s < min nodeEnd e then
      hasMark n.marks m && checkAllHaveMark s e m rest nodeEnd
    else
      checkAllHaveMark s e m rest nodeEnd

/-- The middle-piece mark rewrite of `toggleMarkInRange`: add `m` (if absent)
or remove every copy of `m`. -/
def toggledMarks (shouldAdd : Bool) (m : String) (marks : List String) : List String :=
  if shouldAdd then
    if hasMark marks m then marks else marks ++ [m]
  else
    marks.filter (fun x => x ≠ m)

/-- The slicing loop of `toggleMarkInRange`: spans not overlapping `[s, e)`
pass through; an overlapping span is split into an (omitted-if-empty) left
remainder, the middle piece with `m` toggled, and an (omitted-if-empty) right
remainder.  `Math.max(0, s - nodeStart)` is truncated `Nat` subtraction. -/
def sliceNodes (s e : Nat) (shouldAdd : Bool) (m : String) :
    List InlineNode → Nat → List InlineNode
  | [], _ => []
  | n :: rest, pos =>
    let l := n.text.length
    let nodeEnd := pos + l
    (if nodeEnd ≤ s ∨ e ≤ pos then [n]
     else
       let relativeStart := s - pos
       let relativeEnd := min l (e - pos)
       (if 0 < relativeStart then
          [{ id := "", text := n.text.take relativeStart, marks := n.marks }]
        else []) ++
       [{ id := "",
          text := (n.text.drop relativeStart).take (relativeEnd - relativeStart),
          marks := toggledMarks shouldAdd m n.marks }] ++
       (if relativeEnd < l then
          [{ id := "", text := n.text.drop relativeEnd, marks := n.marks }]
        else [])) ++
    sliceNodes s e shouldAdd m rest nodeEnd

/-- The body of the `mergeSimilarNodes` loop: `cur` is the span most recently
emitted into `merged` (the mutable `last`); a following span with marks equal
as sorted lists is concatenated into it, otherwise `cur` is emitted and the
following span becomes the new `last`. -/
def mergeAux (cur : InlineNode) : List InlineNode → List InlineNode
  | [] => [cur]
  | b :: rest =>
    if areMarksEqual cur.marks b.marks then
      mergeAux { cur with text := cur.text ++ b.text } rest
    else
      cur :: mergeAux b rest

/-- The left-to-right coalescing pass `mergeSimilarNodes`: a span whose marks
equal (as sorted lists) the previously emitted span's marks is concatenated
into it; the merged span keeps the first constituent's id and marks. -/
def mergeSimilarNodes : List InlineNode → List InlineNode
  | [] => []
  | a :: rest => mergeAux a rest

/-- The mark-toggling entry point `toggleMarkInRange(content, start, end, markType)`. -/
def toggleMarkInRange (content : List InlineNode) (s e : Nat) (m : String) :
    List InlineNode :=
  if e ≤ s then content
  else
    mergeSimilarNodes
      (sliceNodes s e (!(checkAllHaveMark s e m content 0)) m content 0)

/-- A block of the document tree (`Block` in `src/types.ts`).  The type tag is
a string so that unrecognized tags (repaired by `sanitizeBlock`) are
representable; the open-ended `props` map is an association list, untouched by
every modelled operation. -/
structure Block where
  id : String
  type : String
  content : List InlineNode
  children : List Block
  isOpen : Bool
  props : List (String × String)

/-- A per-type schema rule (`BlockRule`); `none` models an absent (`undefined`)
field of the TypeScript object literal. -/
structure BlockRule where
  isVoid : Option Bool
  allowMarks : Option Bool
deriving DecidableEq, Repr

/-- The static schema table `BLOCK_SCHEMA`; lookup of an unknown tag yields
`none` (`undefined`). -/
def BLOCK_SCHEMA (t : String) : Option BlockRule :=
  if t = "paragraph" then some ⟨none, some true⟩
  else if t = "heading" then some ⟨none, some true⟩
  else if t = "bullet-list" then some ⟨none, some true⟩
  else if t = "numbered-list" then some ⟨none, some true⟩
  else if t = "quote" then some ⟨none, some true⟩
  else if t = "code" then some ⟨none, some false⟩
  else if t = "divider" then some ⟨some true, none⟩
  else none

/-- Schema repair `sanitizeBlock`: unknown type becomes `paragraph`; a void
block's non-empty content is emptied; a marks-disallowing block with any
marked span has every span's marks emptied.  The `rule.isVoid` truthiness test
is `= some true`; `rule.allowMarks === false` is `= some false`. -/
def sanitizeBlock (b : Block) : Block :=
  match BLOCK_SCHEMA b.type with
  | none => { b with type := "paragraph" }
  | some rule =>
    if rule.isVoid = some true ∧ 0 < b.content.length then
      { b with content := [] }
    else if rule.allowMarks = some false ∧
        b.content.any (fun n => 0 < n.marks.length) then
      { b with content := b.content.map (fun n => { n with marks := [] }) }
    else b

/-- The block factory `createBlock(type, text)`; the random UUID is modelled
by the placeholder id (see the file header). -/
def createBlock (type : String := "paragraph") (text : List Char := []) : Block :=
  sanitizeBlock
    { id := ""
      type := type
      content := if text.isEmpty then [] else [{ id := "", text := text, marks := [] }]
      children := []
      isOpen := true
      props := [] }

/-- Root normalization `normalizeEditorState`: an empty root sequence becomes
one default paragraph; otherwise every root block is sanitized. -/
def normalizeEditorState (blocks : List Block) : List Block :=
  if blocks.length = 0 then [createBlock "paragraph"] else blocks.map sanitizeBlock

/-- Whether a block with the given id occurs anywhere in the forest. -/
def occursInForest : List Block → String → Bool
  | [], _ => false
  | b :: rest, i =>
    b.id == i || occursInForest b.children i || occursInForest rest i
termination_by blocks _ => sizeOf blocks
decreasing_by
  all_goals cases b
  all_goals simp
  all_goals omega

/-- Tree update `updateBlockInTree`: the matching node is rewritten by
`update` and re-sanitized; ancestors are rebuilt; the `.map` of the source is
unfolded into list recursion. -/
def updateBlockInTree : List Block → String → (Block → Block) → List Block
  | [], _, _ => []
  | b :: rest, i, update =>
    (if b.id = i then sanitizeBlock (update b)
     else if 0 < b.children.length then
       { b with children := updateBlockInTree b.children i update }
     else b) :: updateBlockInTree rest i update
termination_by blocks _ _ => sizeOf blocks
decreasing_by
  all_goals cases b
  all_goals simp
  all_goals omega

/-- Tree deletion `deleteBlockFromTree`: the source filters the current level
and then recurses into every remaining child list; the filter-then-map pair is
fused into one recursion with the same value. -/
def deleteBlockFromTree : List Block → String → List Block
  | [], _ => []
  | b :: rest, i =>
    if b.id = i then deleteBlockFromTree rest i
    else { b with children := deleteBlockFromTree b.children i } :: deleteBlockFromTree rest i
termination_by blocks _ => sizeOf blocks
decreasing_by
  all_goals cases b
  all_goals simp
  all_goals omega

/-- Sibling insertion `insertAfterInTree`: the new block is pushed right after
the anchor; otherwise the search recurses into non-empty child lists. -/
def insertAfterInTree : List Block → String → Block → List Block
  | [], _, _ => []
  | b :: rest, anchorId, newBlock =>
    (if b.id = anchorId then [b, newBlock]
     else if 0 < b.children.length then
       [{ b with children := insertAfterInTree b.children anchorId newBlock }]
     else [b]) ++ insertAfterInTree rest anchorId newBlock
termination_by blocks _ _ => sizeOf blocks
decreasing_by
  all_goals cases b
  all_goals simp
  all_goals omega

/-- Sibling insertion `insertBeforeInTree` (the revision whose child list is
rebuilt unconditionally; the variant guarding on reference inequality of the
rebuilt child array is value-equal to it). -/
def insertBeforeInTree : List Block → String → Block → List Block
  | [], _, _ => []
  | b :: rest, anchorId, newBlock =>
    (if b.id = anchorId then [newBlock, b]
     else if 0 < b.children.length then
       [{ b with children := insertBeforeInTree b.children anchorId newBlock }]
     else [b]) ++ insertBeforeInTree rest anchorId newBlock
termination_by blocks _ _ => sizeOf blocks
decreasing_by
  all_goals cases b
  all_goals simp
  all_goals omega

/-- The history triple of `useHistory`. -/
structure HistoryState (T : Type) where
  past : List T
  present : T
  future : List T
deriving DecidableEq, Repr

/-- History `undo`: no-op on empty past, else the last past entry becomes
present and the outgoing present is prepended to the future. -/
def undo {T : Type} (st : HistoryState T) : HistoryState T :=
  match st.past.getLast? with
  | none => st
  | some previous =>
    { past := st.past.dropLast
      present := previous
      future := st.present :: st.future }

/-- History `redo`: no-op on empty future, else the first future entry becomes
present and the outgoing present is appended to the past. -/
def redo {T : Type} (st : HistoryState T) : HistoryState T :=
  match st.future with
  | [] => st
  | next :: newFuture =>
    { past := st.past ++ [st.present]
      present := next
      future := newFuture }

/-- History `set(newPresent, saveToHistory)`: with `save`, the outgoing
present is deep-copied onto the past (a deep copy is the value itself in this
value-semantics model) and the future is cleared; without, only the present is
replaced. -/
def set {T : Type} (st : HistoryState T) (newPresent : T)
    (saveToHistory : Bool) : HistoryState T :=
  if saveToHistory then
    { past := st.past ++ [st.present], present := newPresent, future := [] }
  else
    { st with present := newPresent }

/-- History `saveSnapshot`: a deep copy of the current present is appended to
the past, the present is kept, and the future is cleared. -/
def saveSnapshot {T : Type} (st : HistoryState T) : HistoryState T :=
  { st with past := st.past ++ [st.present], future := [] }

/-- Set-equality of two mark lists over mark type names (the order-independent
equality the specification's adjacency invariant speaks about). -/
def sameMarkNames (a b : List String) : Prop :=
  (∀ x ∈ a, x ∈ b) ∧ (∀ x ∈ b, x ∈ a)

instance (a b : List String) : Decidable (sameMarkNames a b) := by
  unfold sameMarkNames; infer_instance

/-- Eta expansion for the recursive structure `Block`. -/
theorem Block.eta (b : Block) :
    Block.mk b.id b.type b.content b.children b.isOpen b.props = b := by
  cases b; rfl

/-! Branch equations for `sanitizeBlock`. -/

theorem sanitize_of_none (b : Block) (h : BLOCK_SCHEMA b.type = none) :
    sanitizeBlock b = { b with type := "paragraph" } := by
  unfold sanitizeBlock; rw [h]

theorem sanitize_of_void (b : Block) (rule : BlockRule)
    (h : BLOCK_SCHEMA b.type = some rule) (hv : rule.isVoid = some true)
    (hc : 0 < b.content.length) :
    sanitizeBlock b = { b with content := [] } := by
  unfold sanitizeBlock; rw [h]; dsimp only; rw [if_pos ⟨hv, hc⟩]

theorem sanitize_of_marks (b : Block) (rule : BlockRule)
    (h : BLOCK_SCHEMA b.type = some rule)
    (hv : ¬(rule.isVoid = some true ∧ 0 < b.content.length))
    (ha : rule.allowMarks = some false ∧
      b.content.any (fun n => 0 < n.marks.length) = true) :
    sanitizeBlock b =
      { b with content := b.content.map (fun n => { n with marks := [] }) } := by
  unfold sanitizeBlock; rw [h]; dsimp only; rw [if_neg hv, if_pos ha]

theorem sanitize_of_clean (b : Block) (rule : BlockRule)
    (h : BLOCK_SCHEMA b.type = some rule)
    (hv : ¬(rule.isVoid = some true ∧ 0 < b.content.length))
    (ha : ¬(rule.allowMarks = some false ∧
      b.content.any (fun n => 0 < n.marks.length) = true)) :
    sanitizeBlock b = b := by
  unfold sanitizeBlock; rw [h]; dsimp only; rw [if_neg hv, if_neg ha]

/-- C3: `sanitize` is idempotent: for every block `b` (any type tag, any
content, any children), `sanitize(sanitize(b))` equals `sanitize(b)`. -/
theorem sanitizeBlock_idempotent (b : Block) :
    sanitizeBlock (sanitizeBlock b) = sanitizeBlock b := by
  rcases hsc : BLOCK_SCHEMA b.type with _ | rule
  · rw [sanitize_of_none b hsc]
    have hpar : BLOCK_SCHEMA ({ b with type := "paragraph" } : Block).type =
        some ⟨none, some true⟩ := rfl
    apply sanitize_of_clean _ _ hpar
    · intro hfalse; simpa using hfalse.1
    · intro hfalse; simpa using hfalse.1
  · by_cases hvc : rule.isVoid = some true ∧ 0 < b.content.length
    · rw [sanitize_of_void b rule hsc hvc.1 hvc.2]
      have hty : BLOCK_SCHEMA ({ b with content := ([] : List InlineNode) } : Block).type =
          some rule := hsc
      apply sanitize_of_clean _ _ hty
      · intro hfalse; simpa using hfalse.2
      · intro hfalse; simpa using hfalse.2
    · by_cases hmc : rule.allowMarks = some false ∧
        b.content.any (fun n => 0 < n.marks.length) = true
      · rw [sanitize_of_marks b rule hsc hvc hmc]
        have hty : BLOCK_SCHEMA
            ({ b with content := b.content.map (fun n => { n with marks := [] }) } : Block).type =
            some rule := hsc
        have hnv : rule.isVoid ≠ some true := by
          intro hv
          rcases hmc.2 with hany
          rcases List.any_eq_true.mp hany with ⟨n, hn, _⟩
          exact hvc ⟨hv, List.length_pos.mpr (List.ne_nil_of_mem hn)⟩
        apply sanitize_of_clean _ _ hty
        · intro hfalse; exact hnv hfalse.1
        · intro hfalse
          have := hfalse.2
          simp only [List.any_map] at this
          rcases List.any_eq_true.mp this with ⟨n, _, hmark⟩
          simp [Function.comp] at hmark
      · rw [sanitize_of_clean b rule hsc hvc hmc]
        rw [sanitize_of_clean b rule hsc hvc hmc]

/-- C6: for every block of type `code` whose content contains a span with a
non-empty mark set, `sanitize` yields content in which every span's mark set
is empty and the concatenated text is unchanged. -/
theorem sanitize_code_strips_marks (b : Block) (hty : b.type = "code")
    (hm : b.content.any (fun n => 0 < n.marks.length) = true) :
    (∀ n ∈ (sanitizeBlock b).content, n.marks = []) ∧
    joinText (sanitizeBlock b).content = joinText b.content := by
  have hsc : BLOCK_SCHEMA b.type = some ⟨none, some false⟩ := by rw [hty]; rfl
  have hs : sanitizeBlock b =
      { b with content := b.content.map (fun n => { n with marks := [] }) } := by
    apply sanitize_of_marks b _ hsc
    · intro hfalse; simpa using hfalse.1
    · exact ⟨rfl, hm⟩
  rw [hs]
  constructor
  · intro n hn
    rcases List.mem_map.mp hn with ⟨x, _, hx⟩
    rw [← hx]
  · simp only [joinText, List.map_map]
    have hcomp : ((fun n : InlineNode => n.text) ∘
        fun n : InlineNode => ({ id := n.id, text := n.text, marks := [] } : InlineNode)) =
        fun n : InlineNode => n.text := rfl
    rw [hcomp]

/-- Closed witness for C6 at a concrete `code` block carrying a bold mark. -/
theorem sanitize_code_strips_marks_witness :
    (Block.mk "b0" "code" [⟨"s0", "x".toList, ["bold"]⟩] [] true []).type = "code" ∧
    (Block.mk "b0" "code" [⟨"s0", "x".toList, ["bold"]⟩] [] true []).content.any
      (fun n => 0 < n.marks.length) = true ∧
    ((∀ n ∈ (sanitizeBlock (Block.mk "b0" "code" [⟨"s0", "x".toList, ["bold"]⟩] [] true [])).content,
        n.marks = []) ∧
      joinText (sanitizeBlock (Block.mk "b0" "code" [⟨"s0", "x".toList, ["bold"]⟩] [] true [])).content =
        joinText (Block.mk "b0" "code" [⟨"s0", "x".toList, ["bold"]⟩] [] true []).content) :=
  ⟨rfl, rfl, sanitize_code_strips_marks _ rfl rfl⟩

/-! History manager laws. -/

/-- C5: with non-empty past, `undo` then `redo` restores the whole pre-undo
history state (no `set(..., true)` in between is modelled by composing the two
operations directly); with empty future, `redo` is the identity on the whole
state. -/
theorem undo_redo_laws {T : Type} (st st2 : HistoryState T)
    (h : st.past ≠ []) (h2 : st2.future = []) :
    redo (undo st) = st ∧ redo st2 = st2 := by
  constructor
  · obtain ⟨p, pr, f⟩ := st
    rcases List.eq_nil_or_concat p with hp | ⟨l, a, hp⟩
    · exact absurd hp h
    · subst hp
      have hu : undo (HistoryState.mk (l.concat a) pr f) =
          HistoryState.mk l a (pr :: f) := by
        unfold undo
        simp [List.concat_eq_append, List.getLast?_concat, List.dropLast_concat]
      rw [hu]
      unfold redo
      simp [List.concat_eq_append]
  · unfold redo
    rw [h2]

/-- Closed witness for C5 at a concrete history state over `Nat`. -/
theorem undo_redo_laws_witness :
    (HistoryState.mk [1] 2 [] : HistoryState Nat).past ≠ [] ∧
    (HistoryState.mk [] 7 [] : HistoryState Nat).future = [] ∧
    (redo (undo (HistoryState.mk [1] 2 [] : HistoryState Nat)) = HistoryState.mk [1] 2 [] ∧
      redo (HistoryState.mk [] 7 [] : HistoryState Nat) = HistoryState.mk [] 7 []) :=
  ⟨by decide, rfl, undo_redo_laws _ _ (by decide) rfl⟩

/-- C10: `saveSnapshot` appends a (value-equal) copy of the present onto the
past, leaves the present unchanged, and clears the future. -/
theorem saveSnapshot_spec {T : Type} (st : HistoryState T) :
    saveSnapshot st =
      { past := st.past ++ [st.present], present := st.present, future := [] } := rfl

/-- C7: toggling `bold` over `[0, 5)` of the single unmarked span
`"Hello world"` yields exactly two spans: `"Hello"` with mark set `{bold}` and
`" world"` with the empty mark set. -/
theorem toggle_hello_world_scenario :
    (toggleMarkInRange [⟨"s0", "Hello world".toList, []⟩] 0 5 "bold").map
        (fun n => (n.text, n.marks)) =
      [("Hello".toList, ["bold"]), (" world".toList, [])] := by rfl

/-! Identity of the tree operations on an absent id (C4). -/

theorem updateBlockInTree_absent (t : List Block) (i : String) (f : Block → Block)
    (h : occursInForest t i = false) : updateBlockInTree t i f = t := by
  induction t, i using occursInForest.induct with
  | case1 i => unfold updateBlockInTree; rfl
  | case2 b rest i ih1 ih2 =>
    simp only [occursInForest, Bool.or_eq_false_iff] at h
    obtain ⟨⟨hid, hch⟩, hrest⟩ := h
    rw [beq_eq_false_iff_ne] at hid
    unfold updateBlockInTree
    rw [if_neg hid, ih2 hrest]
    by_cases hc : 0 < b.children.length
    · rw [if_pos hc, ih1 hch, Block.eta]
    · rw [if_neg hc]

theorem deleteBlockFromTree_absent (t : List Block) (i : String)
    (h : occursInForest t i = false) : deleteBlockFromTree t i = t := by
  induction t, i using occursInForest.induct with
  | case1 i => unfold deleteBlockFromTree; rfl
  | case2 b rest i ih1 ih2 =>
    simp only [occursInForest, Bool.or_eq_false_iff] at h
    obtain ⟨⟨hid, hch⟩, hrest⟩ := h
    rw [beq_eq_false_iff_ne] at hid
    unfold deleteBlockFromTree
    rw [if_neg hid, ih1 hch, ih2 hrest, Block.eta]

theorem insertAfterInTree_absent (t : List Block) (i : String) (nb : Block)
    (h : occursInForest t i = false) : insertAfterInTree t i nb = t := by
  induction t, i using occursInForest.induct with
  | case1 i => unfold insertAfterInTree; rfl
  | case2 b rest i ih1 ih2 =>
    simp only [occursInForest, Bool.or_eq_false_iff] at h
    obtain ⟨⟨hid, hch⟩, hrest⟩ := h
    rw [beq_eq_false_iff_ne] at hid
    unfold insertAfterInTree
    rw [if_neg hid, ih2 hrest]
    by_cases hc : 0 < b.children.length
    · rw [if_pos hc, ih1 hch, Block.eta]; rfl
    · rw [if_neg hc]; rfl

theorem insertBeforeInTree_absent (t : List Block) (i : String) (nb : Block)
    (h : occursInForest t i = false) : insertBeforeInTree t i nb = t := by
  induction t, i using occursInForest.induct with
  | case1 i => unfold insertBeforeInTree; rfl
  | case2 b rest i ih1 ih2 =>
    simp only [occursInForest, Bool.or_eq_false_iff] at h
    obtain ⟨⟨hid, hch⟩, hrest⟩ := h
    rw [beq_eq_false_iff_ne] at hid
    unfold insertBeforeInTree
    rw [if_neg hid, ih2 hrest]
    by_cases hc : 0 < b.children.length
    · rw [if_pos hc, ih1 hch, Block.eta]; rfl
    · rw [if_neg hc]; rfl

/-- C4: when an id occurs nowhere in the forest, `updateInTree` (for any
update function), `deleteFromTree`, `insertBefore` and `insertAfter` (for any
new block) all return the input forest unchanged. -/
theorem tree_ops_absent_id_identity (t : List Block) (i : String)
    (f : Block → Block) (nb : Block) (h : occursInForest t i = false) :
    updateBlockInTree t i f = t ∧ deleteBlockFromTree t i = t ∧
    insertBeforeInTree t i nb = t ∧ insertAfterInTree t i nb = t :=
  ⟨updateBlockInTree_absent t i f h, deleteBlockFromTree_absent t i h,
    insertBeforeInTree_absent t i nb h, insertAfterInTree_absent t i nb h⟩

/-- Closed witness for C4: a one-block forest and an id not occurring in it. -/
theorem tree_ops_absent_id_identity_witness :
    occursInForest [Block.mk "a" "paragraph" [] [] true []] "zz" = false ∧
    (updateBlockInTree [Block.mk "a" "paragraph" [] [] true []] "zz" id =
        [Block.mk "a" "paragraph" [] [] true []] ∧
      deleteBlockFromTree [Block.mk "a" "paragraph" [] [] true []] "zz" =
        [Block.mk "a" "paragraph" [] [] true []] ∧
      insertBeforeInTree [Block.mk "a" "paragraph" [] [] true []] "zz"
          (Block.mk "n" "quote" [] [] true []) =
        [Block.mk "a" "paragraph" [] [] true []] ∧
      insertAfterInTree [Block.mk "a" "paragraph" [] [] true []] "zz"
          (Block.mk "n" "quote" [] [] true []) =
        [Block.mk "a" "paragraph" [] [] true []]) :=
  ⟨by simp [occursInForest], tree_ops_absent_id_identity _ _ id _ (by simp [occursInForest])⟩

/-- C8: deleting the only block of a one-block document yields the empty
sequence; normalizing the empty sequence yields exactly one default paragraph
block; and `normalizeEditorState` never returns an empty sequence. -/
theorem delete_only_block_then_normalize :
    (∀ b : Block, deleteBlockFromTree [b] b.id = []) ∧
    normalizeEditorState [] = [Block.mk "" "paragraph" [] [] true []] ∧
    (∀ blocks : List Block, normalizeEditorState blocks ≠ []) := by
  refine ⟨?_, ?_, ?_⟩
  · intro b
    simp [deleteBlockFromTree]
  · rfl
  · intro blocks
    cases blocks with
    | nil => simp [normalizeEditorState]
    | cons b rest => simp [normalizeEditorState]

/-! Basic facts about text length, concatenation and mark equality. -/

theorem getTextLength_eq (c : List InlineNode) (a : Nat) :
    c.foldl (fun acc n => acc + n.text.length) a = a + getTextLength c := by
  induction c generalizing a with
  | nil => rfl
  | cons n rest ih =>
    show List.foldl _ (a + n.text.length) rest = a + getTextLength (n :: rest)
    rw [ih]
    show _ = a + List.foldl _ (0 + n.text.length) rest
    rw [ih]
    omega

theorem getTextLength_cons (n : InlineNode) (rest : List InlineNode) :
    getTextLength (n :: rest) = n.text.length + getTextLength rest := by
  show List.foldl _ (0 + n.text.length) rest = _
  rw [getTextLength_eq]
  omega

theorem joinText_cons (n : InlineNode) (rest : List InlineNode) :
    joinText (n :: rest) = n.text ++ joinText rest := by
  simp [joinText]

theorem joinText_append (xs ys : List InlineNode) :
    joinText (xs ++ ys) = joinText xs ++ joinText ys := by
  simp [joinText]

theorem length_joinText (c : List InlineNode) :
    (joinText c).length = getTextLength c := by
  induction c with
  | nil => rfl
  | cons n rest ih => rw [joinText_cons, getTextLength_cons, List.length_append, ih]

theorem charMarks_cons (n : InlineNode) (rest : List InlineNode) (p : Nat) :
    charMarks (n :: rest) p =
      if p < n.text.length then n.marks else charMarks rest (p - n.text.length) := rfl

theorem hasMark_iff (marks : List String) (m : String) :
    hasMark marks m = true ↔ m ∈ marks := by
  simp [hasMark]

theorem areMarksEqual_mem {a b : List String} (h : areMarksEqual a b = true)
    (x : String) : x ∈ a ↔ x ∈ b := by
  unfold areMarksEqual at h
  rw [Bool.and_eq_true, beq_iff_eq, beq_iff_eq] at h
  have hp : sortMarks a = sortMarks b := h.2
  have hma : x ∈ sortMarks a ↔ x ∈ a :=
    (List.perm_insertionSort (fun a b => a ≤ b) a).mem_iff
  have hmb : x ∈ sortMarks b ↔ x ∈ b :=
    (List.perm_insertionSort (fun a b => a ≤ b) b).mem_iff
  rw [← hma, ← hmb, hp]

theorem areMarksEqual_of_sameMarkNames {a b : List String} (ha : a.Nodup)
    (hb : b.Nodup) (h : sameMarkNames a b) : areMarksEqual a b = true := by
  have hab : List.Subperm a b := List.subperm_of_subset ha (fun x hx => h.1 x hx)
  have hba : List.Subperm b a := List.subperm_of_subset hb (fun x hx => h.2 x hx)
  have hp : a.Perm b := hab.antisymm hba
  have hsort : sortMarks a = sortMarks b := by
    have h1 : List.Sorted (fun x y : String => x ≤ y) (sortMarks a) :=
      List.sorted_insertionSort _ a
    have h2 : List.Sorted (fun x y : String => x ≤ y) (sortMarks b) :=
      List.sorted_insertionSort _ b
    exact List.eq_of_perm_of_sorted
      (((List.perm_insertionSort _ a).trans hp).trans
        (List.perm_insertionSort _ b).symm) h1 h2
  unfold areMarksEqual
  rw [Bool.and_eq_true, beq_iff_eq, beq_iff_eq]
  exact ⟨hp.length_eq, hsort⟩

theorem mem_toggledMarks_self (sa : Bool) (m : String) (marks : List String) :
    m ∈ toggledMarks sa m marks ↔ sa = true := by
  unfold toggledMarks
  cases sa with
  | true =>
    simp only [if_true]
    by_cases h : hasMark marks m = true
    · rw [if_pos h]
      simpa using (hasMark_iff marks m).mp h
    · rw [if_neg h]
      simp
  | false =>
    simp only [Bool.false_eq_true, if_false]
    constructor
    · intro hmem
      have := List.of_mem_filter hmem
      simp at this
    · intro hfalse
      exact absurd hfalse (by simp)

theorem toggledMarks_nodup (sa : Bool) (m : String) (marks : List String)
    (h : marks.Nodup) : (toggledMarks sa m marks).Nodup := by
  unfold toggledMarks
  cases sa with
  | true =>
    simp only [if_true]
    by_cases hc : hasMark marks m = true
    · rw [if_pos hc]; exact h
    · rw [if_neg hc]
      rw [List.nodup_append]
      refine ⟨h, List.nodup_singleton m, ?_⟩
      intro x hx hxm
      rw [List.mem_singleton] at hxm
      subst hxm
      exact hc ((hasMark_iff marks x).mpr hx)
  | false =>
    simp only [Bool.false_eq_true, if_false]
    exact h.filter _

theorem take_mid_drop (t : List Char) (rs re : Nat) (h1 : rs ≤ re) :
    t.take rs ++ ((t.drop rs).take (re - rs) ++ t.drop re) = t := by
  have h2 : t.drop re = (t.drop rs).drop (re - rs) := by
    rw [List.drop_drop]
    congr 1
    omega
  rw [h2, List.take_append_drop, List.take_append_drop]

/-! Properties of the coalescing pass. -/

theorem joinText_mergeAux (c : List InlineNode) :
    ∀ cur, joinText (mergeAux cur c) = cur.text ++ joinText c := by
  induction c with
  | nil => intro cur; simp [mergeAux, joinText]
  | cons b rest ih =>
    intro cur
    unfold mergeAux
    by_cases h : areMarksEqual cur.marks b.marks
    · rw [if_pos h, ih, joinText_cons]
      simp
    · rw [if_neg h, joinText_cons, ih, joinText_cons]

theorem joinText_merge (c : List InlineNode) :
    joinText (mergeSimilarNodes c) = joinText c := by
  cases c with
  | nil => rfl
  | cons a rest =>
    show joinText (mergeAux a rest) = _
    rw [joinText_mergeAux, joinText_cons]

theorem mem_charMarks_mergeAux (c : List InlineNode) :
    ∀ cur p x, (x ∈ charMarks (mergeAux cur c) p ↔ x ∈ charMarks (cur :: c) p) := by
  induction c with
  | nil => intro cur p x; rfl
  | cons b rest ih =>
    intro cur p x
    unfold mergeAux
    by_cases h : areMarksEqual cur.marks b.marks
    · rw [if_pos h, ih]
      show x ∈ charMarks (_ :: rest) p ↔ x ∈ charMarks (cur :: b :: rest) p
      rw [charMarks_cons, charMarks_cons, charMarks_cons]
      have hlen : (InlineNode.mk cur.id (cur.text ++ b.text) cur.marks).text.length =
          cur.text.length + b.text.length := List.length_append cur.text b.text
      rw [hlen]
      by_cases h1 : p < cur.text.length
      · rw [if_pos (by omega : p < cur.text.length + b.text.length), if_pos h1]
      · by_cases h2 : p < cur.text.length + b.text.length
        · rw [if_pos h2, if_neg h1,
            if_pos (by omega : p - cur.text.length < b.text.length)]
          exact areMarksEqual_mem h x
        · rw [if_neg h2, if_neg h1,
            if_neg (by omega : ¬ p - cur.text.length < b.text.length)]
          have heq : p - (cur.text.length + b.text.length) =
              p - cur.text.length - b.text.length := by omega
          rw [heq]
    · rw [if_neg h]
      show x ∈ charMarks (cur :: mergeAux b rest) p ↔ _
      rw [charMarks_cons, charMarks_cons]
      by_cases h1 : p < cur.text.length
      · rw [if_pos h1, if_pos h1]
      · rw [if_neg h1, if_neg h1, ih]

theorem mem_charMarks_merge (c : List InlineNode) (p : Nat) (x : String) :
    x ∈ charMarks (mergeSimilarNodes c) p ↔ x ∈ charMarks c p := by
  cases c with
  | nil => rfl
  | cons a rest => exact mem_charMarks_mergeAux rest a p x

theorem mergeAux_head (c : List InlineNode) :
    ∀ cur, ∃ t tail, mergeAux cur c = InlineNode.mk cur.id t cur.marks :: tail := by
  induction c with
  | nil => intro cur; exact ⟨cur.text, [], rfl⟩
  | cons b rest ih =>
    intro cur
    unfold mergeAux
    by_cases h : areMarksEqual cur.marks b.marks
    · rw [if_pos h]
      exact ih _
    · rw [if_neg h]
      exact ⟨cur.text, mergeAux b rest, rfl⟩

theorem chain_mergeAux (c : List InlineNode) :
    ∀ cur, List.Chain' (fun x y => areMarksEqual x.marks y.marks = false)
      (mergeAux cur c) := by
  induction c with
  | nil => intro cur; simp [mergeAux]
  | cons b rest ih =>
    intro cur
    unfold mergeAux
    by_cases h : areMarksEqual cur.marks b.marks
    · rw [if_pos h]
      exact ih _
    · rw [if_neg h]
      obtain ⟨t, tail, htail⟩ := mergeAux_head rest b
      rw [htail]
      refine List.chain'_cons.mpr ⟨?_, ?_⟩
      · simpa using (Bool.eq_false_iff.mpr h)
      · rw [← htail]
        exact ih b

theorem chain_merge (c : List InlineNode) :
    List.Chain' (fun x y => areMarksEqual x.marks y.marks = false)
      (mergeSimilarNodes c) := by
  cases c with
  | nil => simp [mergeSimilarNodes]
  | cons a rest => exact chain_mergeAux rest a

theorem mergeAux_marks_mem (c : List InlineNode) :
    ∀ cur x, x ∈ mergeAux cur c →
      x.marks = cur.marks ∨ ∃ y ∈ c, x.marks = y.marks := by
  induction c with
  | nil =>
    intro cur x hx
    rw [mergeAux, List.mem_singleton] at hx
    exact Or.inl (by rw [hx])
  | cons b rest ih =>
    intro cur x hx
    unfold mergeAux at hx
    by_cases h : areMarksEqual cur.marks b.marks
    · rw [if_pos h] at hx
      rcases ih _ x hx with hm | ⟨y, hy, hm⟩
      · exact Or.inl hm
      · exact Or.inr ⟨y, List.mem_cons_of_mem b hy, hm⟩
    · rw [if_neg h, List.mem_cons] at hx
      rcases hx with hx | hx
      · exact Or.inl (by rw [hx])
      · rcases ih b x hx with hm | ⟨y, hy, hm⟩
        · exact Or.inr ⟨b, List.mem_cons_self b rest, hm⟩
        · exact Or.inr ⟨y, List.mem_cons_of_mem b hy, hm⟩

theorem merge_marks_mem (c : List InlineNode) (x : InlineNode)
    (hx : x ∈ mergeSimilarNodes c) : ∃ y ∈ c, x.marks = y.marks := by
  cases c with
  | nil => simp [mergeSimilarNodes] at hx
  | cons a rest =>
    rcases mergeAux_marks_mem rest a x hx with hm | ⟨y, hy, hm⟩
    · exact ⟨a, List.mem_cons_self a rest, hm⟩
    · exact ⟨y, List.mem_cons_of_mem a hy, hm⟩

/-! Properties of the slicing pass and the direction check. -/

theorem sliceNodes_cons (s e : Nat) (sa : Bool) (m : String) (n : InlineNode)
    (rest : List InlineNode) (pos : Nat) :
    sliceNodes s e sa m (n :: rest) pos =
      (if pos + n.text.length ≤ s ∨ e ≤ pos then [n]
       else
         (if 0 < s - pos then
            [InlineNode.mk "" (n.text.take (s - pos)) n.marks]
          else []) ++
         [InlineNode.mk ""
            ((n.text.drop (s - pos)).take (min n.text.length (e - pos) - (s - pos)))
            (toggledMarks sa m n.marks)] ++
         (if min n.text.length (e - pos) < n.text.length then
            [InlineNode.mk "" (n.text.drop (min n.text.length (e - pos))) n.marks]
          else [])) ++
      sliceNodes s e sa m rest (pos + n.text.length) := rfl

theorem checkAllHaveMark_cons (s e : Nat) (m : String) (n : InlineNode)
    (rest : List InlineNode) (pos : Nat) :
    checkAllHaveMark s e m (n :: rest) pos =
      if max pos s < min (pos + n.text.length) e then
        hasMark n.marks m && checkAllHaveMark s e m rest (pos + n.text.length)
      else checkAllHaveMark s e m rest (pos + n.text.length) := rfl

theorem joinText_sliceNodes (s e : Nat) (hse : s < e) (sa : Bool) (m : String)
    (c : List InlineNode) :
    ∀ pos, joinText (sliceNodes s e sa m c pos) = joinText c := by
  induction c with
  | nil => intro pos; rfl
  | cons n rest ih =>
    intro pos
    rw [sliceNodes_cons, joinText_append, ih, joinText_cons]
    congr 1
    by_cases hg : pos + n.text.length ≤ s ∨ e ≤ pos
    · rw [if_pos hg]
      simp [joinText]
    · rw [if_neg hg]
      push_neg at hg
      obtain ⟨hg1, hg2⟩ := hg
      rw [joinText_append, joinText_append]
      have hA : joinText
          (if 0 < s - pos then [InlineNode.mk "" (n.text.take (s - pos)) n.marks]
           else []) = n.text.take (s - pos) := by
        by_cases h0 : 0 < s - pos
        · rw [if_pos h0]; simp [joinText]
        · rw [if_neg h0]
          have hz : s - pos = 0 := by omega
          rw [hz]
          simp [joinText]
      have hB : joinText
          (if min n.text.length (e - pos) < n.text.length then
            [InlineNode.mk "" (n.text.drop (min n.text.length (e - pos))) n.marks]
           else []) = n.text.drop (min n.text.length (e - pos)) := by
        by_cases h0 : min n.text.length (e - pos) < n.text.length
        · rw [if_pos h0]; simp [joinText]
        · rw [if_neg h0]
          have hz : min n.text.length (e - pos) = n.text.length := by omega
          rw [hz]
          simp [joinText]
      have hM : joinText
          [InlineNode.mk ""
            ((n.text.drop (s - pos)).take (min n.text.length (e - pos) - (s - pos)))
            (toggledMarks sa m n.marks)] =
          (n.text.drop (s - pos)).take (min n.text.length (e - pos) - (s - pos)) := by
        simp [joinText]
      rw [hA, hB, hM, List.append_assoc]
      exact take_mid_drop n.text (s - pos) (min n.text.length (e - pos)) (by omega)

theorem charMarks_sliceNodes_full (e : Nat) (sa : Bool) (m : String)
    (c : List InlineNode) :
    ∀ pos, pos + getTextLength c ≤ e → ∀ p, p < getTextLength c →
      charMarks (sliceNodes 0 e sa m c pos) p = toggledMarks sa m (charMarks c p) := by
  induction c with
  | nil =>
    intro pos hpos p hp
    simp [getTextLength] at hp
  | cons n rest ih =>
    intro pos hpos p hp
    have ht := getTextLength_cons n rest
    rw [sliceNodes_cons]
    by_cases hg : pos + n.text.length ≤ 0 ∨ e ≤ pos
    · have hl : n.text.length = 0 := by omega
      rw [if_pos hg]
      show charMarks (n :: sliceNodes 0 e sa m rest (pos + n.text.length)) p = _
      rw [charMarks_cons, charMarks_cons, if_neg (by omega), if_neg (by omega)]
      exact ih (pos + n.text.length) (by omega) (p - n.text.length) (by omega)
    · rw [if_neg hg]
      push_neg at hg
      obtain ⟨hg1, hg2⟩ := hg
      have hrs : (0 : Nat) - pos = 0 := by omega
      have hre : min n.text.length (e - pos) = n.text.length := by omega
      rw [hrs, hre]
      rw [if_neg (lt_irrefl 0), if_neg (lt_irrefl n.text.length)]
      rw [List.nil_append, List.append_nil]
      rw [Nat.sub_zero, List.drop_zero, List.take_length]
      show charMarks
        (InlineNode.mk "" n.text (toggledMarks sa m n.marks) ::
          sliceNodes 0 e sa m rest (pos + n.text.length)) p = _
      rw [charMarks_cons, charMarks_cons]
      by_cases hpl : p < n.text.length
      · rw [if_pos hpl, if_pos hpl]
      · rw [if_neg hpl, if_neg hpl]
        exact ih (pos + n.text.length) (by omega) (p - n.text.length) (by omega)

theorem checkAllHaveMark_full (e : Nat) (m : String) (c : List InlineNode) :
    ∀ pos, pos + getTextLength c ≤ e →
      (checkAllHaveMark 0 e m c pos = true ↔
        ∀ p, p < getTextLength c → m ∈ charMarks c p) := by
  induction c with
  | nil =>
    intro pos hpos
    simp [checkAllHaveMark, getTextLength]
  | cons n rest ih =>
    intro pos hpos
    have ht := getTextLength_cons n rest
    rw [checkAllHaveMark_cons]
    by_cases hl : n.text.length = 0
    · rw [if_neg (by omega : ¬ max pos 0 < min (pos + n.text.length) e)]
      rw [ih (pos + n.text.length) (by omega)]
      constructor
      · intro h p hp
        rw [charMarks_cons, if_neg (by omega)]
        exact h (p - n.text.length) (by omega)
      · intro h p hp
        have hpn := h (p + n.text.length) (by rw [getTextLength_cons]; omega)
        rw [charMarks_cons, if_neg (by omega)] at hpn
        have heq : p + n.text.length - n.text.length = p := by omega
        rw [heq] at hpn
        exact hpn
    · rw [if_pos (by omega : max pos 0 < min (pos + n.text.length) e)]
      rw [Bool.and_eq_true, hasMark_iff, ih (pos + n.text.length) (by omega)]
      constructor
      · rintro ⟨h1, h2⟩ p hp
        rw [charMarks_cons]
        by_cases hpl : p < n.text.length
        · rw [if_pos hpl]; exact h1
        · rw [if_neg hpl]
          exact h2 (p - n.text.length) (by rw [getTextLength_cons] at hp; omega)
      · intro h
        constructor
        · have h0 := h 0 (by rw [getTextLength_cons]; omega)
          rw [charMarks_cons, if_pos (by omega)] at h0
          exact h0
        · intro p hp
          have hpn := h (n.text.length + p) (by rw [getTextLength_cons]; omega)
          rw [charMarks_cons, if_neg (by omega)] at hpn
          have heq : n.text.length + p - n.text.length = p := by omega
          rw [heq] at hpn
          exact hpn

theorem sliceNodes_marks_nodup (s e : Nat) (sa : Bool) (m : String)
    (c : List InlineNode) :
    ∀ pos, (∀ y ∈ c, y.marks.Nodup) →
      ∀ x ∈ sliceNodes s e sa m c pos, x.marks.Nodup := by
  induction c with
  | nil =>
    intro pos _ x hx
    simp [sliceNodes] at hx
  | cons n rest ih =>
    intro pos hc x hx
    rw [sliceNodes_cons, List.mem_append] at hx
    have hn := hc n (List.mem_cons_self n rest)
    rcases hx with hx | hx
    · by_cases hg : pos + n.text.length ≤ s ∨ e ≤ pos
      · rw [if_pos hg, List.mem_singleton] at hx
        subst hx
        exact hn
      · rw [if_neg hg, List.mem_append] at hx
        rcases hx with hx | hx
        · rw [List.mem_append] at hx
          rcases hx with hx | hx
          · split_ifs at hx with h0
            · rw [List.mem_singleton] at hx
              subst hx
              exact hn
            · simp at hx
          · rw [List.mem_singleton] at hx
            subst hx
            exact toggledMarks_nodup sa m n.marks hn
        · split_ifs at hx with h0
          · rw [List.mem_singleton] at hx
            subst hx
            exact hn
          · simp at hx
    · exact ih (pos + n.text.length)
        (fun y hy => hc y (List.mem_cons_of_mem n hy)) x hx

/-! Toggle-level consequences. -/

theorem toggle_text_invariant (c : List InlineNode) (s e : Nat) (m : String) :
    joinText (toggleMarkInRange c s e m) = joinText c := by
  unfold toggleMarkInRange
  by_cases hse : e ≤ s
  · rw [if_pos hse]
  · rw [if_neg hse, joinText_merge, joinText_sliceNodes s e (by omega) _ m c 0]

theorem toggle_textLength (c : List InlineNode) (s e : Nat) (m : String) :
    getTextLength (toggleMarkInRange c s e m) = getTextLength c := by
  rw [← length_joinText, ← length_joinText, toggle_text_invariant]

theorem mem_charMarks_toggle_full (c : List InlineNode) (m x : String)
    (h : 0 < getTextLength c) (p : Nat) (hp : p < getTextLength c) :
    (x ∈ charMarks (toggleMarkInRange c 0 (getTextLength c) m) p ↔
      x ∈ toggledMarks (!(checkAllHaveMark 0 (getTextLength c) m c 0)) m
        (charMarks c p)) := by
  unfold toggleMarkInRange
  rw [if_neg (by omega : ¬ getTextLength c ≤ 0)]
  rw [mem_charMarks_merge]
  rw [charMarks_sliceNodes_full (getTextLength c) _ m c 0 (by omega) p hp]

/-- C9: toggling a mark never changes the document text — for every span
sequence, mark type and offset pair, the concatenation of the output spans'
texts equals the concatenation of the input spans' texts. -/
theorem toggleMark_preserves_text (content : List InlineNode) (s e : Nat)
    (m : String) :
    joinText (toggleMarkInRange content s e m) = joinText content :=
  toggle_text_invariant content s e m

/-- Counterexample to C2 as stated: on the mixed-marked sequence
`[⟨"a", bold⟩, ⟨"b", −⟩]` the double full-range toggle of `bold` erases the
mark everywhere, so position 0 loses its original `bold`. -/
theorem toggle_involution_counterexample :
    "bold" ∈ charMarks [InlineNode.mk "x" ['a'] ["bold"], InlineNode.mk "y" ['b'] []] 0 ∧
    getTextLength [InlineNode.mk "x" ['a'] ["bold"], InlineNode.mk "y" ['b'] []] = 2 ∧
    "bold" ∉ charMarks
      (toggleMarkInRange
        (toggleMarkInRange
          [InlineNode.mk "x" ['a'] ["bold"], InlineNode.mk "y" ['b'] []] 0 2 "bold")
        0 2 "bold") 0 := by
  decide

/-- C2 (amended): when the mark is present on every character of `[0, len)` or
absent from every character (the all-or-nothing direction scan makes a mixed
range collapse to uniform, so mixed inputs are not restored), the double
full-range toggle restores the original presence of the mark at every
character position, and the text is unchanged by each of the two calls. -/
theorem toggle_full_range_involution_uniform (spans : List InlineNode)
    (m : String) (hlen : 0 < getTextLength spans)
    (huni : (∀ p, p < getTextLength spans → m ∈ charMarks spans p) ∨
      (∀ p, p < getTextLength spans → m ∉ charMarks spans p)) :
    (∀ p, p < getTextLength spans →
      (m ∈ charMarks
          (toggleMarkInRange (toggleMarkInRange spans 0 (getTextLength spans) m)
            0 (getTextLength spans) m) p ↔
        m ∈ charMarks spans p)) ∧
    joinText (toggleMarkInRange spans 0 (getTextLength spans) m) = joinText spans ∧
    joinText (toggleMarkInRange (toggleMarkInRange spans 0 (getTextLength spans) m)
        0 (getTextLength spans) m) =
      joinText (toggleMarkInRange spans 0 (getTextLength spans) m) := by
  have hlen1 : getTextLength (toggleMarkInRange spans 0 (getTextLength spans) m) =
      getTextLength spans := toggle_textLength spans 0 (getTextLength spans) m
  refine ⟨?_, toggle_text_invariant spans 0 (getTextLength spans) m,
    toggle_text_invariant _ 0 (getTextLength spans) m⟩
  intro p hp
  have hstep1 : ∀ q, q < getTextLength spans →
      (m ∈ charMarks (toggleMarkInRange spans 0 (getTextLength spans) m) q ↔
        m ∈ toggledMarks (!(checkAllHaveMark 0 (getTextLength spans) m spans 0)) m
          (charMarks spans q)) :=
    fun q hq => mem_charMarks_toggle_full spans m m hlen q hq
  have hstep2 : ∀ q, q < getTextLength spans →
      (m ∈ charMarks
          (toggleMarkInRange (toggleMarkInRange spans 0 (getTextLength spans) m)
            0 (getTextLength spans) m) q ↔
        m ∈ toggledMarks
          (!(checkAllHaveMark 0 (getTextLength spans) m
            (toggleMarkInRange spans 0 (getTextLength spans) m) 0)) m
          (charMarks (toggleMarkInRange spans 0 (getTextLength spans) m) q)) := by
    intro q hq
    have hmem := mem_charMarks_toggle_full
      (toggleMarkInRange spans 0 (getTextLength spans) m) m m
      (by rw [hlen1]; exact hlen) q (by rw [hlen1]; exact hq)
    rw [hlen1] at hmem
    exact hmem
  have hcheck1 := checkAllHaveMark_full (getTextLength spans) m spans 0 (by omega)
  have hcheck2 := checkAllHaveMark_full (getTextLength spans) m
    (toggleMarkInRange spans 0 (getTextLength spans) m) 0 (by rw [hlen1]; omega)
  rw [hlen1] at hcheck2
  rcases huni with hall | hnone
  · have hA1 : checkAllHaveMark 0 (getTextLength spans) m spans 0 = true :=
      hcheck1.mpr (fun q hq => hall q hq)
    have hnone1 : ∀ q, q < getTextLength spans →
        m ∉ charMarks (toggleMarkInRange spans 0 (getTextLength spans) m) q := by
      intro q hq hmem
      have hmem2 := (hstep1 q hq).mp hmem
      rw [hA1] at hmem2
      exact Bool.false_ne_true ((mem_toggledMarks_self false m _).mp hmem2)
    have hA2 : checkAllHaveMark 0 (getTextLength spans) m
        (toggleMarkInRange spans 0 (getTextLength spans) m) 0 = false := by
      by_contra hA2t
      rw [Bool.not_eq_false] at hA2t
      exact hnone1 0 (by omega) (hcheck2.mp hA2t 0 (by omega))
    have hmem2 : m ∈ charMarks
        (toggleMarkInRange (toggleMarkInRange spans 0 (getTextLength spans) m)
          0 (getTextLength spans) m) p := by
      rw [hstep2 p hp, hA2]
      exact (mem_toggledMarks_self true m _).mpr rfl
    exact iff_of_true hmem2 (hall p hp)
  · have hA1 : checkAllHaveMark 0 (getTextLength spans) m spans 0 = false := by
      by_contra hA1t
      rw [Bool.not_eq_false] at hA1t
      exact hnone 0 (by omega) (hcheck1.mp hA1t 0 (by omega))
    have hall1 : ∀ q, q < getTextLength spans →
        m ∈ charMarks (toggleMarkInRange spans 0 (getTextLength spans) m) q := by
      intro q hq
      rw [hstep1 q hq, hA1]
      exact (mem_toggledMarks_self true m _).mpr rfl
    have hA2 : checkAllHaveMark 0 (getTextLength spans) m
        (toggleMarkInRange spans 0 (getTextLength spans) m) 0 = true :=
      hcheck2.mpr (fun q hq => hall1 q hq)
    have hnone2 : m ∉ charMarks
        (toggleMarkInRange (toggleMarkInRange spans 0 (getTextLength spans) m)
          0 (getTextLength spans) m) p := by
      intro hmem
      have hmem2 := (hstep2 p hp).mp hmem
      rw [hA2] at hmem2
      exact Bool.false_ne_true ((mem_toggledMarks_self false m _).mp hmem2)
    exact iff_of_false hnone2 (hnone p hp)

/-- Closed witness for C2 (amended) at the uniformly unmarked sequence
`[⟨"ab", −⟩]` with mark `bold`. -/
theorem toggle_full_range_involution_uniform_witness :
    0 < getTextLength [InlineNode.mk "s" ['a', 'b'] []] ∧
    (∀ p, p < getTextLength [InlineNode.mk "s" ['a', 'b'] []] →
      "bold" ∉ charMarks [InlineNode.mk "s" ['a', 'b'] []] p) ∧
    ((∀ p, p < getTextLength [InlineNode.mk "s" ['a', 'b'] []] →
      ("bold" ∈ charMarks
          (toggleMarkInRange
            (toggleMarkInRange [InlineNode.mk "s" ['a', 'b'] []] 0
              (getTextLength [InlineNode.mk "s" ['a', 'b'] []]) "bold")
            0 (getTextLength [InlineNode.mk "s" ['a', 'b'] []]) "bold") p ↔
        "bold" ∈ charMarks [InlineNode.mk "s" ['a', 'b'] []] p)) ∧
    joinText (toggleMarkInRange [InlineNode.mk "s" ['a', 'b'] []] 0
        (getTextLength [InlineNode.mk "s" ['a', 'b'] []]) "bold") =
      joinText [InlineNode.mk "s" ['a', 'b'] []] ∧
    joinText (toggleMarkInRange
        (toggleMarkInRange [InlineNode.mk "s" ['a', 'b'] []] 0
          (getTextLength [InlineNode.mk "s" ['a', 'b'] []]) "bold")
        0 (getTextLength [InlineNode.mk "s" ['a', 'b'] []]) "bold") =
      joinText (toggleMarkInRange [InlineNode.mk "s" ['a', 'b'] []] 0
        (getTextLength [InlineNode.mk "s" ['a', 'b'] []]) "bold")) :=
  ⟨by decide, by decide,
    toggle_full_range_involution_uniform [InlineNode.mk "s" ['a', 'b'] []] "bold"
      (by decide) (Or.inr (by decide))⟩

/-- Counterexample to C1 as stated: with a degenerate offset pair the toggle
returns its input unchanged, leaving two adjacent spans with set-equal (empty)
mark sets; and with `start < end` but a duplicated mark tag in the input, two
untouched adjacent spans have set-equal mark sets `\x7bbold, bold\x7d` and
`\x7bbold\x7d`. -/
theorem toggle_adjacent_equal_marks_counterexample :
    sameMarkNames
      ((toggleMarkInRange [InlineNode.mk "a" ['a'] [], InlineNode.mk "b" ['b'] []]
          0 0 "bold").get ⟨0, by decide⟩).marks
      ((toggleMarkInRange [InlineNode.mk "a" ['a'] [], InlineNode.mk "b" ['b'] []]
          0 0 "bold").get ⟨1, by decide⟩).marks ∧
    sameMarkNames
      ((toggleMarkInRange [InlineNode.mk "a" ['a'] ["bold", "bold"],
          InlineNode.mk "b" ['b'] ["bold"], InlineNode.mk "c" ['c'] []]
          2 3 "italic").get ⟨0, by decide⟩).marks
      ((toggleMarkInRange [InlineNode.mk "a" ['a'] ["bold", "bold"],
          InlineNode.mk "b" ['b'] ["bold"], InlineNode.mk "c" ['c'] []]
          2 3 "italic").get ⟨1, by decide⟩).marks := by
  decide

/-- C1 (amended): for offsets with `start < end` and inputs whose spans carry
no duplicated mark tag, the sequence returned by `toggleMarkInRange` contains
no two adjacent spans whose mark sets are set-equal over mark type names. -/
theorem toggle_adjacent_marks_not_set_equal (content : List InlineNode)
    (s e : Nat) (m : String) (hse : s < e)
    (hnd : ∀ y ∈ content, y.marks.Nodup) (i : Nat)
    (hi : i + 1 < (toggleMarkInRange content s e m).length) :
    ¬ sameMarkNames
      ((toggleMarkInRange content s e m).get ⟨i, by omega⟩).marks
      ((toggleMarkInRange content s e m).get ⟨i + 1, hi⟩).marks := by
  intro hsame
  have hout2 : toggleMarkInRange content s e m = mergeSimilarNodes
      (sliceNodes s e (!(checkAllHaveMark s e m content 0)) m content 0) := by
    unfold toggleMarkInRange
    rw [if_neg (by omega)]
  have hchain : List.Chain' (fun x y => areMarksEqual x.marks y.marks = false)
      (toggleMarkInRange content s e m) := by
    rw [hout2]
    exact chain_merge _
  have hrel := (List.chain'_iff_get.mp hchain) i (by omega)
  have hslice : ∀ x ∈ sliceNodes s e (!(checkAllHaveMark s e m content 0)) m content 0,
      x.marks.Nodup := sliceNodes_marks_nodup s e _ m content 0 hnd
  have hall_nodup : ∀ x ∈ toggleMarkInRange content s e m, x.marks.Nodup := by
    rw [hout2]
    intro x hx
    obtain ⟨y, hy, hmarks⟩ := merge_marks_mem _ x hx
    rw [hmarks]
    exact hslice y hy
  have heq := areMarksEqual_of_sameMarkNames
    (hall_nodup _ (List.get_mem _ _ _)) (hall_nodup _ (List.get_mem _ _ _)) hsame
  exact Bool.noConfusion (heq.symm.trans hrel)

/-- Closed witness for C1 (amended): toggling `bold` over `[0, 1)` of the
unmarked span `"ab"` yields two adjacent spans with distinct mark sets. -/
theorem toggle_adjacent_marks_not_set_equal_witness :
    0 < 1 ∧
    (∀ y ∈ [InlineNode.mk "s" ['a', 'b'] []], y.marks.Nodup) ∧
    0 + 1 < (toggleMarkInRange [InlineNode.mk "s" ['a', 'b'] []] 0 1 "bold").length ∧
    ¬ sameMarkNames
      ((toggleMarkInRange [InlineNode.mk "s" ['a', 'b'] []] 0 1 "bold").get
        ⟨0, by decide⟩).marks
      ((toggleMarkInRange [InlineNode.mk "s" ['a', 'b'] []] 0 1 "bold").get
        ⟨1, by decide⟩).marks :=
  ⟨by decide, by decide, by decide,
    toggle_adjacent_marks_not_set_equal [InlineNode.mk "s" ['a', 'b'] []] 0 1 "bold"
      (by decide) (by decide) 0 (by decide)⟩

end NotesIt
